import Mathlib

/-!
Verification development for the SmartEnumCpp library.

The development shallowly embeds the two core headers:
- SmartEnum.hpp (per-type instance registry with name/value lookup), and
- SmartFlagEnum.hpp (flag validation, bitmask decomposition, string rendering),
and proves or refutes the specified properties against the embedding.

Machine integers: the underlying value type is int.  The operations the
library performs on values are only the bitwise ones (and, or, complement)
plus comparisons and equality, so two's-complement int semantics coincide
with the mathematical-integer bitwise semantics (for every width); values
are therefore modelled as Int, with the bitwise operations spelled out by
sign cases exactly as two's complement defines them.
-/

namespace SmartEnumCpp

/-- Bitwise difference on Nat (the bits of m with the bits of n removed),
written with kernel-accelerated operations. -/
def natDiff (m n : ℕ) : ℕ := m ^^^ (m &&& n)

/-- Two's-complement bitwise AND on mathematical integers, by sign cases
(this is the semantics of the C++ operator & on int). -/
def intAnd : ℤ → ℤ → ℤ
  | .ofNat m, .ofNat n => .ofNat (m &&& n)
  | .ofNat m, .negSucc n => .ofNat (natDiff m n)
  | .negSucc m, .ofNat n => .ofNat (natDiff n m)
  | .negSucc m, .negSucc n => .negSucc (m ||| n)

/-- Two's-complement bitwise OR on mathematical integers (C++ operator |). -/
def intOr : ℤ → ℤ → ℤ
  | .ofNat m, .ofNat n => .ofNat (m ||| n)
  | .ofNat m, .negSucc n => .negSucc (natDiff n m)
  | .negSucc m, .ofNat n => .negSucc (natDiff m n)
  | .negSucc m, .negSucc n => .negSucc (m &&& n)

/-- Two's-complement bitwise complement on mathematical integers (C++ operator ~). -/
def intNot : ℤ → ℤ
  | .ofNat m => .negSucc m
  | .negSucc m => .ofNat m

theorem natDiff_testBit (m n i : ℕ) :
    (natDiff m n).testBit i = (m.testBit i && !(n.testBit i)) := by
  unfold natDiff
  rw [Nat.testBit_xor, Nat.testBit_and]
  cases m.testBit i <;> cases n.testBit i <;> rfl

theorem intAnd_testBit (a b : ℤ) (k : ℕ) :
    (intAnd a b).testBit k = (a.testBit k && b.testBit k) := by
  cases a with
  | ofNat m =>
    cases b with
    | ofNat n =>
      show Nat.testBit (m &&& n) k = _
      rw [Nat.testBit_and]; rfl
    | negSucc n =>
      show Nat.testBit (natDiff m n) k = _
      rw [natDiff_testBit]; rfl
  | negSucc m =>
    cases b with
    | ofNat n =>
      show Nat.testBit (natDiff n m) k = _
      rw [natDiff_testBit]
      show _ = (!(Nat.testBit m k) && Nat.testBit n k)
      cases m.testBit k <;> cases n.testBit k <;> rfl
    | negSucc n =>
      show (!(Nat.testBit (m ||| n) k)) = _
      rw [Nat.testBit_or]
      show _ = (!(Nat.testBit m k) && !(Nat.testBit n k))
      cases m.testBit k <;> cases n.testBit k <;> rfl

theorem intOr_testBit (a b : ℤ) (k : ℕ) :
    (intOr a b).testBit k = (a.testBit k || b.testBit k) := by
  cases a with
  | ofNat m =>
    cases b with
    | ofNat n =>
      show Nat.testBit (m ||| n) k = _
      rw [Nat.testBit_or]; rfl
    | negSucc n =>
      show (!(Nat.testBit (natDiff n m) k)) = _
      rw [natDiff_testBit]
      show _ = (Nat.testBit m k || !(Nat.testBit n k))
      cases m.testBit k <;> cases n.testBit k <;> rfl
  | negSucc m =>
    cases b with
    | ofNat n =>
      show (!(Nat.testBit (natDiff m n) k)) = _
      rw [natDiff_testBit]
      show _ = (!(Nat.testBit m k) || Nat.testBit n k)
      cases m.testBit k <;> cases n.testBit k <;> rfl
    | negSucc n =>
      show (!(Nat.testBit (m &&& n) k)) = _
      rw [Nat.testBit_and]
      show _ = (!(Nat.testBit m k) || !(Nat.testBit n k))
      cases m.testBit k <;> cases n.testBit k <;> rfl

theorem intNot_testBit (a : ℤ) (k : ℕ) :
    (intNot a).testBit k = !(a.testBit k) := by
  cases a with
  | ofNat m => rfl
  | negSucc m =>
    show Nat.testBit m k = !(!(Nat.testBit m k))
    cases m.testBit k <;> rfl

theorem intAnd_nonneg (a b : ℤ) (h : 0 ≤ a) : 0 ≤ intAnd a b := by
  cases a with
  | ofNat m => cases b <;> exact Int.ofNat_nonneg _
  | negSucc m => exact absurd h (by exact of_decide_eq_false rfl)

theorem int_zero_testBit (k : ℕ) : (0 : ℤ).testBit k = false :=
  Nat.zero_testBit k

theorem nonneg_eq_zero_of_testBit (r : ℤ) (h0 : 0 ≤ r)
    (h : ∀ b : ℕ, r.testBit b = false) : r = 0 := by
  obtain ⟨m, rfl⟩ := Int.eq_ofNat_of_zero_le h0
  have hm : m = 0 := Nat.eq_of_testBit_eq (fun i => by
    have := h i
    simpa using this)
  simp [hm]

theorem two_pow_eq_ofNat (b : ℕ) : (2 : ℤ) ^ b = Int.ofNat (2 ^ b) := by
  rw [Int.ofNat_eq_natCast]
  push_cast
  ring

theorem two_pow_testBit (b k : ℕ) : ((2 : ℤ) ^ b).testBit k = decide (b = k) := by
  rw [two_pow_eq_ofNat]
  show Nat.testBit (2 ^ b) k = decide (b = k)
  exact Nat.testBit_two_pow

theorem two_pow_nonneg_int (b : ℕ) : 0 ≤ (2 : ℤ) ^ b := by positivity

theorem intAnd_two_pow_of_testBit (r : ℤ) (h0 : 0 ≤ r) (b : ℕ)
    (hb : r.testBit b = true) : intAnd r ((2 : ℤ) ^ b) = (2 : ℤ) ^ b := by
  obtain ⟨m, rfl⟩ := Int.eq_ofNat_of_zero_le h0
  rw [two_pow_eq_ofNat]
  show Int.ofNat (m &&& 2 ^ b) = Int.ofNat (2 ^ b)
  congr 1
  apply Nat.eq_of_testBit_eq
  intro i
  rw [Nat.testBit_and]
  rcases eq_or_ne b i with rfl | hne
  · have : Nat.testBit m b = true := hb
    simp [this, Nat.testBit_two_pow_self]
  · have : Nat.testBit (2 ^ b) i = false := by
      rw [Nat.testBit_two_pow]
      simpa using hne
    simp [this]

/-- Lexicographic strict comparison of character sequences; this is the
semantics of operator < on std::string (std::lexicographical_compare). -/
def charListLt : List Char → List Char → Bool
  | [], [] => false
  | [], _ :: _ => true
  | _ :: _, [] => false
  | a :: as, b :: bs => if a < b then true else if b < a then false else charListLt as bs

theorem charListLt_irrefl : ∀ l : List Char, charListLt l l = false
  | [] => rfl
  | a :: as => by
    unfold charListLt
    simp [lt_irrefl a, charListLt_irrefl as]

theorem charListLt_trans : ∀ x y z : List Char,
    charListLt x y = true → charListLt y z = true → charListLt x z = true
  | [], [], _, hxy, _ => by simp [charListLt] at hxy
  | [], _ :: _, [], _, hyz => by simp [charListLt] at hyz
  | [], _ :: _, _ :: _, _, _ => rfl
  | _ :: _, [], _, hxy, _ => by simp [charListLt] at hxy
  | _ :: _, _ :: _, [], _, hyz => by simp [charListLt] at hyz
  | a :: as, b :: bs, c :: cs, hxy, hyz => by
    unfold charListLt at hxy hyz ⊢
    rcases lt_trichotomy a b with hab | hab | hab
    · rcases lt_trichotomy b c with hbc | hbc | hbc
      · simp [lt_trans hab hbc]
      · subst hbc; simp [hab]
      · rcases lt_trichotomy a c with hac | hac | hac
        · simp [hac]
        · subst hac
          simp [hbc, asymm hbc] at hyz
        · simp [hbc, asymm hbc] at hyz
    · subst hab
      simp [lt_irrefl a] at hxy
      rcases lt_trichotomy a c with hac | hac | hac
      · simp [hac]
      · subst hac
        simp [lt_irrefl a] at hyz ⊢
        exact charListLt_trans as bs cs hxy hyz
      · simp [hac, asymm hac] at hyz
    · simp [hab, asymm hab] at hxy

theorem charListLt_connex : ∀ x y : List Char,
    charListLt x y = false → charListLt y x = false → x = y
  | [], [], _, _ => rfl
  | [], _ :: _, hxy, _ => by simp [charListLt] at hxy
  | _ :: _, [], _, hyx => by simp [charListLt] at hyx
  | a :: as, b :: bs, hxy, hyx => by
    unfold charListLt at hxy hyx
    rcases lt_trichotomy a b with hab | hab | hab
    · simp [hab] at hxy
    · subst hab
      simp [lt_irrefl a] at hxy hyx
      rw [charListLt_connex as bs hxy hyx]
    · simp [hab, asymm hab] at hyx

theorem charListLt_asymm (x y : List Char) (h : charListLt x y = true) :
    charListLt y x = false := by
  cases hyx : charListLt y x
  · rfl
  · have := charListLt_trans x y x h hyx
    rw [charListLt_irrefl] at this
    exact absurd this (by simp)

/-- Insertion into a list sorted by the boolean relation le; together with
sortLe below this is the executable sorting routine used to model std::sort.
For the comparators in this development all keys are distinct, so the result
coincides with the (unique) std::sort result. -/
def insertLe {α : Type} (le : α → α → Bool) (x : α) : List α → List α
  | [] => [x]
  | y :: ys => if le x y then x :: y :: ys else y :: insertLe le x ys

/-- Sort a list by the boolean relation le (insertion sort). -/
def sortLe {α : Type} (le : α → α → Bool) : List α → List α
  | [] => []
  | x :: xs => insertLe le x (sortLe le xs)

theorem insertLe_perm {α : Type} (le : α → α → Bool) (x : α) :
    ∀ l : List α, (insertLe le x l).Perm (x :: l)
  | [] => List.Perm.refl _
  | y :: ys => by
    unfold insertLe
    by_cases h : le x y = true
    · simp [h]
    · simp [h]
      exact (List.Perm.cons y (insertLe_perm le x ys)).trans (List.Perm.swap x y ys)

theorem sortLe_perm {α : Type} (le : α → α → Bool) :
    ∀ l : List α, (sortLe le l).Perm l
  | [] => List.Perm.refl _
  | x :: xs => by
    unfold sortLe
    exact ((insertLe_perm le x (sortLe le xs)).trans
      (List.Perm.cons x (sortLe_perm le xs)))

theorem mem_sortLe {α : Type} (le : α → α → Bool) (l : List α) (a : α) :
    a ∈ sortLe le l ↔ a ∈ l :=
  (sortLe_perm le l).mem_iff

theorem insertLe_pairwise {α : Type} (le : α → α → Bool)
    (htrans : ∀ a b c, le a b = true → le b c = true → le a c = true)
    (htotal : ∀ a b, (le a b || le b a) = true) (x : α) :
    ∀ l : List α, l.Pairwise (fun a b => le a b = true) →
      (insertLe le x l).Pairwise (fun a b => le a b = true)
  | [], _ => by simp [insertLe]
  | y :: ys, h => by
    unfold insertLe
    rcases List.pairwise_cons.mp h with ⟨hy, hys⟩
    by_cases hxy : le x y = true
    · simp only [hxy, if_true]
      refine List.pairwise_cons.mpr ⟨?_, h⟩
      intro z hz
      rcases List.mem_cons.mp hz with rfl | hz
      · exact hxy
      · exact htrans x y z hxy (hy z hz)
    · simp only [hxy, if_false]
      refine List.pairwise_cons.mpr ⟨?_, insertLe_pairwise le htrans htotal x ys hys⟩
      intro z hz
      rcases List.mem_cons.mp ((insertLe_perm le x ys).mem_iff.mp hz) with heq | hz2
      · have hyx : le y x = true := by
          rcases Bool.or_eq_true_iff.mp (htotal x y) with h1 | h1
          · exact absurd h1 hxy
          · exact h1
        rw [heq]
        exact hyx
      · exact hy z hz2

theorem sortLe_pairwise {α : Type} (le : α → α → Bool)
    (htrans : ∀ a b c, le a b = true → le b c = true → le a c = true)
    (htotal : ∀ a b, (le a b || le b a) = true) :
    ∀ l : List α, (sortLe le l).Pairwise (fun a b => le a b = true)
  | [] => List.Pairwise.nil
  | x :: xs =>
    insertLe_pairwise le htrans htotal x (sortLe le xs)
      (sortLe_pairwise le htrans htotal xs)

/-- The first element at or after position k satisfying p is returned by
find? when everything before position k fails p and position k holds x with
p x; this pins down the first-registrant-wins behaviour of the lookup maps. -/
theorem find?_eq_of_take {α : Type} (p : α → Bool) :
    ∀ (l : List α) (k : ℕ) (x : α), l[k]? = some x → p x = true →
      (∀ y ∈ l.take k, p y = false) → l.find? p = some x
  | [], k, x, h, _, _ => by simp at h
  | a :: l, 0, x, h, hx, _ => by
    simp at h
    subst h
    simp [List.find?, hx]
  | a :: l, k + 1, x, h, hx, hb => by
    have ha : p a = false := hb a (by simp)
    simp only [List.find?, ha]
    exact find?_eq_of_take p l k x (by simpa using h) hx
      (fun y hy => hb y (by simp [List.take, hy]))

/-- An enumeration instance: an immutable name/value pair.  Both
SmartEnum<TEnum> and SmartFlagEnum<TEnum> instances carry exactly this data
(fields name_ and value_). -/
structure EnumInstance where
  name : String
  value : ℤ
deriving DecidableEq

/-- Registration of a sequence of instances, mirroring the per-type registry
construction at static-initialization time.  Each registration mirrors the
constructor (which rejects an empty name with invalid_argument) followed by
registerInstance (which rejects a duplicate exact name with runtime_error and
otherwise appends to the insertion-ordered list).  Both SmartEnum and
SmartFlagEnum implement this identical check; the value and case-insensitive
name indices keep the first registrant and are modelled by first-match
lookups on the insertion-ordered list. -/
def registerAllAux : List EnumInstance → List (String × ℤ) → Except String (List EnumInstance)
  | acc, [] => .ok acc
  | acc, (n, v) :: rest =>
    if n.isEmpty then .error "SmartEnum name cannot be empty"
    else if (acc.find? (fun i => i.name == n)).isSome then
      .error ("Duplicate SmartEnum name " ++ n)
    else registerAllAux (acc ++ [⟨n, v⟩]) rest

/-- Register a whole declaration list, starting from the empty registry. -/
def registerAll (pairs : List (String × ℤ)) : Except String (List EnumInstance) :=
  registerAllAux [] pairs

/-- Invariant of every successfully constructed registry: all names are
non-empty, and exact names are pairwise distinct. -/
def GoodNames (l : List EnumInstance) : Prop :=
  (∀ i ∈ l, i.name.isEmpty = false) ∧ l.Pairwise (fun a b => a.name ≠ b.name)

theorem registerAllAux_goodNames :
    ∀ (pairs : List (String × ℤ)) (acc insts : List EnumInstance),
      GoodNames acc → registerAllAux acc pairs = .ok insts → GoodNames insts
  | [], acc, insts, hacc, h => by
    simp only [registerAllAux] at h
    cases h
    exact hacc
  | (n, v) :: rest, acc, insts, hacc, h => by
    simp only [registerAllAux] at h
    split at h
    next hemp => cases h
    next hemp =>
      split at h
      next hdup => cases h
      next hdup =>
        refine registerAllAux_goodNames rest (acc ++ [⟨n, v⟩]) insts ⟨?_, ?_⟩ h
        · intro i hi
          rcases List.mem_append.mp hi with hi | hi
          · exact hacc.1 i hi
          · simp at hi
            subst hi
            simpa using hemp
        · refine List.pairwise_append.mpr ⟨hacc.2, by simp, ?_⟩
          intro a ha b hb
          simp at hb
          subst hb
          show a.name ≠ n
          intro hcontra
          apply hdup
          rw [List.find?_isSome]
          exact ⟨a, ha, by simp [hcontra]⟩

theorem registerAll_goodNames (pairs : List (String × ℤ)) (insts : List EnumInstance)
    (h : registerAll pairs = .ok insts) : GoodNames insts :=
  registerAllAux_goodNames pairs [] insts ⟨by simp, by simp⟩ h

/-- Exact-name lookup returns x for every member x of a registry with
pairwise-distinct names. -/
theorem find?_name_eq_of_goodNames :
    ∀ (l : List EnumInstance), l.Pairwise (fun a b => a.name ≠ b.name) →
      ∀ x ∈ l, l.find? (fun i => i.name == x.name) = some x
  | [], _, x, hx => by simp at hx
  | y :: l, h, x, hx => by
    rcases List.pairwise_cons.mp h with ⟨hy, hl⟩
    rcases List.mem_cons.mp hx with heq | hmem
    · subst heq
      simp [List.find?]
    · have hne : y.name ≠ x.name := hy x hmem
      have : (y.name == x.name) = false := by simpa using hne
      simp only [List.find?, this]
      exact find?_name_eq_of_goodNames l hl x hmem

namespace SmartEnum

/-- Embeds SmartEnum<TEnum>::List (SmartEnum.hpp).  On first call it sorts
the registered instances alphabetically by name (std::sort with comparator
a->Name() < b->Name(), memoized by std::call_once); names are unique within
a registry, so the sorted order is unique and stability is irrelevant.  The
model, like the specification, assumes registration completes before the
first query. -/
def ListFn (insts : List EnumInstance) : List EnumInstance :=
  sortLe (fun a b => !(charListLt b.name.data a.name.data)) insts

/-- Embeds SmartEnum<TEnum>::TryFromNameInternal: an empty name misses, an
exact lookup consults the exact-name index, a case-insensitive lookup folds
both sides to lower case; each index keeps the first registrant. -/
def TryFromNameInternal (insts : List EnumInstance) (name : String)
    (ignoreCase : Bool) : Option EnumInstance :=
  if name.isEmpty then none
  else if ignoreCase then
    insts.find? (fun i => i.name.toLower == name.toLower)
  else
    insts.find? (fun i => i.name == name)

/-- Embeds SmartEnum<TEnum>::TryFromValueInternal: the value index keeps the
first registrant with each value. -/
def TryFromValueInternal (insts : List EnumInstance) (value : ℤ) : Option EnumInstance :=
  insts.find? (fun i => i.value == value)

end SmartEnum

namespace SmartFlagEnum

/-- A flag enumeration type: its insertion-ordered registry together with the
capability markers (whether TEnum also derives from AllowNegativeFlagEnumInput
and AllowUnsafeFlagEnumValues).  The markers are recorded because the claims
quantify over them; SmartFlagEnum.hpp declares them as empty marker structs
and no code path ever inspects them (the attempted detection in
enforceFlagDefinitions and TryFromValue is the inert delete-of-null pattern
modelled by deleteNullPointerThrows below). -/
structure FlagDecl where
  instances : List EnumInstance
  allowNegativeInput : Bool
  allowUnsafeValues : Bool
deriving DecidableEq

/-- The three exception types of SmartFlagEnum.hpp. -/
inductive FlagError where
  | invalidFlagEnumValueParse (value : ℤ)
  | negativeFlagValueNotAllowed (value : ℤ)
  | smartFlagEnumNotPowerOfTwo (name : String) (value : ℤ)
deriving DecidableEq

/-- Whether the statement delete p with p a null pointer throws.  The C++
standard defines delete on a null pointer as a no-op that cannot throw, so
this is false; SmartFlagEnum.hpp nevertheless guards its two throw sites
behind catch blocks that only run if this statement threw, which makes those
throw sites dead code.  Keeping the constant makes the embedded control flow
match the source line for line. -/
def deleteNullPointerThrows : Bool := false

/-- Embeds SmartFlagEnum::isPowerOfTwo: v > 0 and v and v-1 share no bits. -/
def isPowerOfTwo (v : ℤ) : Bool :=
  decide (0 < v) && decide (intAnd v (v - 1) = 0)

/-- Embeds the loop body of SmartFlagEnum::enforceFlagDefinitions: for the
first instance whose value is not a power of two the code runs delete on a
null pointer inside a try block and then breaks out of the loop; the catch
that would throw SmartFlagEnumNotPowerOfTwoException is reached only if that
delete threw.  After the loop definitionsValidated becomes true. -/
def enforceLoop : List EnumInstance → Except FlagError Unit
  | [] => .ok ()
  | i :: rest =>
    if isPowerOfTwo i.value then enforceLoop rest
    else if deleteNullPointerThrows then
      .error (.smartFlagEnumNotPowerOfTwo i.name i.value)
    else .ok ()

/-- Embeds SmartFlagEnum::enforceFlagDefinitions (memoization aside: the
result is the same on every call, so the validated flag is immaterial). -/
def enforceFlagDefinitions (d : FlagDecl) : Except FlagError Unit :=
  enforceLoop d.instances

/-- Embeds SmartFlagEnum::fitsInDefinedFlags: OR together every declared
value, then check the input has no bit outside that union. -/
def fitsInDefinedFlags (d : FlagDecl) (input : ℤ) : Bool :=
  let allFlags := d.instances.foldl (fun acc i => intOr acc i.value) 0
  decide (intAnd input (intNot allFlags) = 0)

/-- The sort in SmartFlagEnum::TryFromValue: std::sort with comparator
a->Value() > b->Value(), i.e. descending by value (ties, which require
duplicate declared values, are unspecified in C++; the stable model picks
one admissible result). -/
def sortDescByValue (l : List EnumInstance) : List EnumInstance :=
  sortLe (fun a b => decide (b.value ≤ a.value)) l

/-- Embeds the greedy decomposition loop of SmartFlagEnum::TryFromValue:
visit flags in descending value order, take a flag whenever its bits are all
present in the remainder, clear them, and stop as soon as the remainder is
zero.  Returns the taken flags and the final remainder. -/
def greedyLoop : List EnumInstance → ℤ → List EnumInstance × ℤ
  | [], r => ([], r)
  | f :: rest, r =>
    if intAnd r f.value = f.value then
      if intAnd r (intNot f.value) = 0 then ([f], intAnd r (intNot f.value))
      else (f :: (greedyLoop rest (intAnd r (intNot f.value))).1,
            (greedyLoop rest (intAnd r (intNot f.value))).2)
    else
      if r = 0 then ([], r)
      else greedyLoop rest r

/-- Embeds SmartFlagEnum::TryFromValue.  An error value models an exception
escaping (possible only from the dead branches), ok none models returning
false, ok (some l) models returning true with outResult l.  Order of steps
exactly as in the source: validation, exact value-index match, the negative
branch with the inert delete-of-null, the coverage check, then the greedy
descending decomposition whose success is remainder zero. -/
def TryFromValue (d : FlagDecl) (value : ℤ) :
    Except FlagError (Option (List EnumInstance)) :=
  match enforceFlagDefinitions d with
  | .error e => .error e
  | .ok () =>
    match d.instances.find? (fun i => i.value == value) with
    | some inst => .ok (some [inst])
    | none =>
      if value < 0 then
        if deleteNullPointerThrows then .error (.negativeFlagValueNotAllowed value)
        else .ok none
      else if fitsInDefinedFlags d value then
        let p := greedyLoop (sortDescByValue d.instances) value
        if p.2 = 0 then .ok (some p.1) else .ok none
      else .ok none

/-- Embeds SmartFlagEnum::FromValue: forward TryFromValue, turning a false
result into InvalidFlagEnumValueParseException. -/
def FromValue (d : FlagDecl) (value : ℤ) : Except FlagError (List EnumInstance) :=
  match TryFromValue d value with
  | .error e => .error e
  | .ok (some r) => .ok r
  | .ok none => .error (.invalidFlagEnumValueParse value)

/-- Embeds SmartFlagEnum::List: run validation, then return the
insertion-ordered instance list (the flag variant does not sort). -/
def ListFn (d : FlagDecl) : Except FlagError (List EnumInstance) :=
  match enforceFlagDefinitions d with
  | .error e => .error e
  | .ok () => .ok d.instances

/-- Embeds SmartFlagEnum::TryFromValueToString: decompose, then join the
names with a comma and a space in decomposition order. -/
def TryFromValueToString (d : FlagDecl) (value : ℤ) : Except FlagError (Option String) :=
  match TryFromValue d value with
  | .error e => .error e
  | .ok none => .ok none
  | .ok (some flags) => .ok (some (String.intercalate ", " (flags.map EnumInstance.name)))

/-- Embeds SmartFlagEnum::FromValueToString: forward TryFromValueToString,
turning a false result into InvalidFlagEnumValueParseException. -/
def FromValueToString (d : FlagDecl) (value : ℤ) : Except FlagError String :=
  match TryFromValueToString d value with
  | .error e => .error e
  | .ok (some s) => .ok s
  | .ok none => .error (.invalidFlagEnumValueParse value)

theorem intAnd_zero_left : ∀ b : ℤ, intAnd 0 b = 0
  | .ofNat n => by
    show Int.ofNat (0 &&& n) = 0
    rw [Nat.zero_and]
    rfl
  | .negSucc n => by
    show Int.ofNat (natDiff 0 n) = 0
    unfold natDiff
    rw [Nat.zero_and, Nat.zero_xor]
    rfl

/-- Validation never fails: for a non-power-of-two value the loop performs a
no-op delete of a null pointer and breaks, so the only throw site is dead. -/
theorem enforceLoop_ok : ∀ l : List EnumInstance, enforceLoop l = .ok ()
  | [] => rfl
  | i :: rest => by
    unfold enforceLoop
    by_cases h : isPowerOfTwo i.value = true
    · rw [if_pos h]
      exact enforceLoop_ok rest
    · rw [if_neg h]
      rfl

theorem enforceFlagDefinitions_ok (d : FlagDecl) : enforceFlagDefinitions d = .ok () :=
  enforceLoop_ok d.instances

theorem foldl_intOr_testBit :
    ∀ (l : List EnumInstance) (acc : ℤ) (b : ℕ),
      (l.foldl (fun a i => intOr a i.value) acc).testBit b =
        (acc.testBit b || l.any (fun i => i.value.testBit b))
  | [], acc, b => by simp [List.foldl]
  | i :: rest, acc, b => by
    simp only [List.foldl, List.any_cons]
    rw [foldl_intOr_testBit rest (intOr acc i.value) b, intOr_testBit]
    cases acc.testBit b <;> cases i.value.testBit b <;> simp

/-- If the coverage check passes and every declared value is a power of two,
every set bit of the input is the value of some declared instance. -/
theorem fitsInDefinedFlags_cov (d : FlagDecl) (v : ℤ)
    (hfit : fitsInDefinedFlags d v = true)
    (hpow : ∀ i ∈ d.instances, ∃ k : ℕ, i.value = (2 : ℤ) ^ k) :
    ∀ b : ℕ, v.testBit b = true → ∃ i ∈ d.instances, i.value = (2 : ℤ) ^ b := by
  intro b hb
  have hz : intAnd v (intNot (d.instances.foldl (fun a i => intOr a i.value) 0)) = 0 := by
    simpa [fitsInDefinedFlags] using hfit
  have hbit := congrArg (fun z : ℤ => z.testBit b) hz
  simp only at hbit
  rw [intAnd_testBit, intNot_testBit, int_zero_testBit] at hbit
  have hall : (d.instances.foldl (fun a i => intOr a i.value) 0).testBit b = true := by
    cases hA : (d.instances.foldl (fun a i => intOr a i.value) 0).testBit b
    · rw [hb, hA] at hbit
      exact absurd hbit (by decide)
    · rfl
  rw [foldl_intOr_testBit, int_zero_testBit, Bool.false_or] at hall
  rcases List.any_eq_true.mp hall with ⟨i, hi, hib⟩
  rcases hpow i hi with ⟨k, hk⟩
  have hkb : k = b := by
    rw [hk, two_pow_testBit] at hib
    exact of_decide_eq_true hib
  exact ⟨i, hi, by rw [hk, hkb]⟩

/-- When every set bit of the remainder is the value of some flag in the
list, the greedy loop drives the remainder to zero. -/
theorem greedyLoop_remainder_zero :
    ∀ (flags : List EnumInstance) (r : ℤ), 0 ≤ r →
      (∀ b : ℕ, r.testBit b = true → ∃ i ∈ flags, i.value = (2 : ℤ) ^ b) →
      (greedyLoop flags r).2 = 0
  | [], r, h0, hcov => by
    have hbits : ∀ b : ℕ, r.testBit b = false := by
      intro b
      cases hb : r.testBit b
      · rfl
      · rcases hcov b hb with ⟨i, hi, _⟩
        simp at hi
    simpa [greedyLoop] using nonneg_eq_zero_of_testBit r h0 hbits
  | f :: rest, r, h0, hcov => by
    unfold greedyLoop
    by_cases hc : intAnd r f.value = f.value
    · rw [if_pos hc]
      by_cases hz : intAnd r (intNot f.value) = 0
      · rw [if_pos hz]
        exact hz
      · rw [if_neg hz]
        show (greedyLoop rest (intAnd r (intNot f.value))).2 = 0
        apply greedyLoop_remainder_zero rest _ (intAnd_nonneg _ _ h0)
        intro b hb
        rw [intAnd_testBit, intNot_testBit] at hb
        rw [Bool.and_eq_true] at hb
        rcases hb with ⟨hrb, hnb⟩
        have hfb : f.value.testBit b = false := by
          cases hfv : f.value.testBit b
          · rfl
          · rw [hfv] at hnb
            exact absurd hnb (by decide)
        rcases hcov b hrb with ⟨i, hi, hival⟩
        rcases List.mem_cons.mp hi with heq | hmem
        · exfalso
          have hfv2 : f.value = (2 : ℤ) ^ b := by
            rw [← heq]
            exact hival
          rw [hfv2, two_pow_testBit] at hfb
          simp at hfb
        · exact ⟨i, hmem, hival⟩
    · rw [if_neg hc]
      by_cases hr0 : r = 0
      · rw [if_pos hr0]
        exact hr0
      · rw [if_neg hr0]
        apply greedyLoop_remainder_zero rest r h0
        intro b hb
        rcases hcov b hb with ⟨i, hi, hival⟩
        rcases List.mem_cons.mp hi with heq | hmem
        · exfalso
          apply hc
          have hfv2 : f.value = (2 : ℤ) ^ b := by
            rw [← heq]
            exact hival
          rw [hfv2]
          exact intAnd_two_pow_of_testBit r h0 b hb
        · exact ⟨i, hmem, hival⟩

/-- The flags taken by the greedy loop form a sublist of the visited list,
hence inherit its order. -/
theorem greedyLoop_fst_sublist :
    ∀ (flags : List EnumInstance) (r : ℤ), ((greedyLoop flags r).1).Sublist flags
  | [], r => by simp [greedyLoop]
  | f :: rest, r => by
    unfold greedyLoop
    by_cases hc : intAnd r f.value = f.value
    · rw [if_pos hc]
      by_cases hz : intAnd r (intNot f.value) = 0
      · rw [if_pos hz]
        simp
      · rw [if_neg hz]
        exact List.Sublist.cons₂ f (greedyLoop_fst_sublist rest _)
    · rw [if_neg hc]
      by_cases hr0 : r = 0
      · rw [if_pos hr0]
        simp
      · rw [if_neg hr0]
        exact List.Sublist.cons f (greedyLoop_fst_sublist rest r)

/-- With remainder zero and no zero-valued flag, the greedy loop takes
nothing and stops at once. -/
theorem greedyLoop_at_zero (flags : List EnumInstance)
    (h : ∀ f ∈ flags, f.value ≠ 0) : greedyLoop flags 0 = ([], 0) := by
  cases flags with
  | nil => rfl
  | cons f rest =>
    unfold greedyLoop
    have hfv : f.value ≠ 0 := h f (by simp)
    have hc : ¬ intAnd 0 f.value = f.value := by
      rw [intAnd_zero_left]
      exact fun he => hfv he.symm
    rw [if_neg hc, if_pos rfl]

theorem sortDescByValue_sorted (l : List EnumInstance) :
    (sortDescByValue l).Pairwise (fun a b => b.value ≤ a.value) := by
  have h := sortLe_pairwise (fun a b : EnumInstance => decide (b.value ≤ a.value))
    (fun a b c hab hbc => by
      rw [decide_eq_true_eq] at hab hbc ⊢
      exact le_trans hbc hab)
    (fun a b => by
      rcases le_total a.value b.value with h | h <;> simp [h]) l
  exact h.imp (fun hx => of_decide_eq_true hx)

theorem mem_sortDescByValue (l : List EnumInstance) (a : EnumInstance) :
    a ∈ sortDescByValue l ↔ a ∈ l :=
  mem_sortLe _ l a

theorem find?_value_eq_none (l : List EnumInstance) (v : ℤ)
    (h : l.all (fun i => i.value != v) = true) :
    l.find? (fun i => i.value == v) = none := by
  rw [List.find?_eq_none]
  intro x hx
  have hxv := List.all_eq_true.mp h x hx
  simpa using hxv

/-- Case equation for TryFromValue: an exact hit in the value index returns
that single instance. -/
theorem tryFromValue_eq_exact (d : FlagDecl) (v : ℤ) (x : EnumInstance)
    (hfind : d.instances.find? (fun i => i.value == v) = some x) :
    TryFromValue d v = .ok (some [x]) := by
  unfold TryFromValue
  rw [enforceFlagDefinitions_ok, hfind]

/-- Case equation for TryFromValue: with no exact hit, a negative value
returns false (the delete-of-null never throws, so the code reaches the
return false statement and the catch that would rethrow is dead). -/
theorem tryFromValue_eq_neg (d : FlagDecl) (v : ℤ)
    (hfind : d.instances.find? (fun i => i.value == v) = none) (hv : v < 0) :
    TryFromValue d v = .ok none := by
  unfold TryFromValue
  rw [enforceFlagDefinitions_ok, hfind]
  show (if v < 0 then _ else _) = _
  rw [if_pos hv]
  rfl

/-- Case equation for TryFromValue: with no exact hit, a non-negative value
passing the coverage check is decomposed greedily, succeeding exactly when
the remainder reaches zero. -/
theorem tryFromValue_eq_decomp (d : FlagDecl) (v : ℤ)
    (hfind : d.instances.find? (fun i => i.value == v) = none) (hv : ¬ v < 0)
    (hfit : fitsInDefinedFlags d v = true) :
    TryFromValue d v =
      (if (greedyLoop (sortDescByValue d.instances) v).2 = 0
       then .ok (some (greedyLoop (sortDescByValue d.instances) v).1)
       else .ok none) := by
  unfold TryFromValue
  rw [enforceFlagDefinitions_ok, hfind]
  show (if v < 0 then _ else _) = _
  rw [if_neg hv]
  show (if fitsInDefinedFlags d v = true then _ else _) = _
  rw [if_pos hfit]

/-- Case equation for TryFromValue: with no exact hit, a non-negative value
failing the coverage check returns false. -/
theorem tryFromValue_eq_nofit (d : FlagDecl) (v : ℤ)
    (hfind : d.instances.find? (fun i => i.value == v) = none) (hv : ¬ v < 0)
    (hfit : fitsInDefinedFlags d v = false) :
    TryFromValue d v = .ok none := by
  unfold TryFromValue
  rw [enforceFlagDefinitions_ok, hfind]
  show (if v < 0 then _ else _) = _
  rw [if_neg hv]
  show (if fitsInDefinedFlags d v = true then _ else _) = _
  rw [if_neg (by simp [hfit])]

end SmartFlagEnum

/-! Claim theorems. -/

open SmartFlagEnum in
/-- C1: the claim states that for a flag type without
AllowUnsafeFlagEnumValues declaring a non-power-of-two, non-sentinel value
(here B = 3 next to A = 1), construction succeeds but the first flag query
fails with the not-power-of-two error naming the offending instance.  The
code cannot raise that error: in enforceFlagDefinitions the only throw of
SmartFlagEnumNotPowerOfTwoException sits in a catch block that runs only if
the preceding delete of a null pointer threw, which the C++ standard
forbids; the code instead breaks out of the loop and memoizes success.
This theorem evaluates the embedding at the failing input: construction
succeeds, and the first flag query List() also succeeds. -/
theorem c1_not_power_of_two_error_unreachable :
    registerAll [("A", 1), ("B", 3)] = .ok [⟨"A", 1⟩, ⟨"B", 3⟩] ∧
    SmartFlagEnum.ListFn ⟨[⟨"A", 1⟩, ⟨"B", 3⟩], false, false⟩ =
      .ok [⟨"A", 1⟩, ⟨"B", 3⟩] :=
  ⟨rfl, rfl⟩

/-- Flag type with AllowNegativeFlagEnumInput and no explicit -1 instance,
used to refute C2. -/
def dC2cex : SmartFlagEnum.FlagDecl := ⟨[⟨"A", 1⟩, ⟨"B", 2⟩], true, false⟩

open SmartFlagEnum in
/-- C2 counterexample: a flag type declaring AllowNegativeFlagEnumInput with
non-zero instances A = 1 and B = 2 but no explicit -1 instance.  The claim
says FromValue(-1) returns every non-zero instance; the code returns false
from TryFromValue (the negative branch ignores the capability marker and
returns false after the no-op delete of a null pointer), so FromValue throws
the generic parse error instead of returning [B, A]. -/
theorem c2_counterexample :
    dC2cex.allowNegativeInput = true ∧
    dC2cex.instances.all (fun i => i.value != -1) = true ∧
    dC2cex.instances.all (fun i => i.value != 0) = true ∧
    SmartFlagEnum.TryFromValue dC2cex (-1) = .ok none ∧
    SmartFlagEnum.FromValue dC2cex (-1) =
      .error (.invalidFlagEnumValueParse (-1)) :=
  ⟨rfl, rfl, rfl, rfl, rfl⟩

open SmartFlagEnum in
/-- C2 (amended): FromValue(-1) returns exactly the first-registered
explicit -1 instance when one exists (exact match wins); when no instance
has value -1, TryFromValue(-1) reports failure and FromValue(-1) fails with
the generic parse error — the all-non-zero-instances fallback of the claim
is not implemented, and the AllowNegativeFlagEnumInput marker is never
consulted. -/
theorem c2_neg_one_exact_match_or_failure (d : SmartFlagEnum.FlagDecl) :
    (∀ (x : EnumInstance) (k : ℕ), d.instances[k]? = some x → x.value = -1 →
      (d.instances.take k).all (fun y => y.value != -1) = true →
      SmartFlagEnum.FromValue d (-1) = .ok [x]) ∧
    (d.instances.all (fun i => i.value != -1) = true →
      SmartFlagEnum.TryFromValue d (-1) = .ok none ∧
      SmartFlagEnum.FromValue d (-1) =
        .error (.invalidFlagEnumValueParse (-1))) := by
  constructor
  · intro x k hk hx hbefore
    have hfind : d.instances.find? (fun i => i.value == (-1 : ℤ)) = some x := by
      apply find?_eq_of_take _ d.instances k x hk (by simp [hx])
      intro y hy
      have hyv := List.all_eq_true.mp hbefore y hy
      simpa using hyv
    have hTry := tryFromValue_eq_exact d (-1) x hfind
    unfold SmartFlagEnum.FromValue
    rw [hTry]
  · intro hnone
    have hfind := find?_value_eq_none d.instances (-1) hnone
    have hTry := tryFromValue_eq_neg d (-1) hfind (by decide)
    refine ⟨hTry, ?_⟩
    unfold SmartFlagEnum.FromValue
    rw [hTry]

/-- Flag type with an explicit All = -1 sentinel, used in the C2 witness. -/
def dC2all : SmartFlagEnum.FlagDecl :=
  ⟨[⟨"None", 0⟩, ⟨"A", 1⟩, ⟨"B", 2⟩, ⟨"All", -1⟩], true, false⟩

/-- C2 witness: with the explicit sentinel, FromValue(-1) is exactly that
instance; without it, TryFromValue(-1) fails. -/
theorem c2_witness :
    SmartFlagEnum.FromValue dC2all (-1) = .ok [⟨"All", -1⟩] ∧
    SmartFlagEnum.TryFromValue ⟨[⟨"X", 1⟩, ⟨"Y", 2⟩], true, false⟩ (-1) = .ok none :=
  ⟨(c2_neg_one_exact_match_or_failure dC2all).1 ⟨"All", -1⟩ 3 rfl rfl (by decide),
   ((c2_neg_one_exact_match_or_failure ⟨[⟨"X", 1⟩, ⟨"Y", 2⟩], true, false⟩).2
      (by decide)).1⟩

open SmartFlagEnum in
/-- C3: when the queried value equals the value of a registered instance
(positionally the first such registrant, which is the instance the value
index holds — including an explicitly declared combination such as 3 for
A|B), TryFromValue returns exactly that single instance, so an explicit
combination always wins over bit-level decomposition. -/
theorem c3_exact_match_wins (d : SmartFlagEnum.FlagDecl) (v : ℤ)
    (x : EnumInstance) (k : ℕ) (hk : d.instances[k]? = some x)
    (hx : x.value = v)
    (hbefore : (d.instances.take k).all (fun y => y.value != v) = true) :
    SmartFlagEnum.TryFromValue d v = .ok (some [x]) := by
  apply tryFromValue_eq_exact
  apply find?_eq_of_take _ d.instances k x hk (by simp [hx])
  intro y hy
  have hyv := List.all_eq_true.mp hbefore y hy
  simpa using hyv

/-- Flag type with the explicit combination AB = 3, used in the C3 witness. -/
def dC3w : SmartFlagEnum.FlagDecl :=
  ⟨[⟨"None", 0⟩, ⟨"A", 1⟩, ⟨"B", 2⟩, ⟨"C", 4⟩, ⟨"AB", 3⟩, ⟨"All", -1⟩], true, false⟩

/-- C3 witness: querying 3 returns the explicit combination AB alone, not
the decomposition [B, A]. -/
theorem c3_witness :
    SmartFlagEnum.TryFromValue dC3w 3 = .ok (some [⟨"AB", 3⟩]) :=
  c3_exact_match_wins dC3w 3 ⟨"AB", 3⟩ 4 rfl rfl (by decide)

open SmartFlagEnum in
/-- C4: whenever TryFromValue succeeds by decomposition (the queried value
matches no registered instance exactly), the returned instances are in
descending value order, and TryFromValueToString joins their names with a
comma and a space in that same order. -/
theorem c4_decomposition_descending (d : SmartFlagEnum.FlagDecl) (v : ℤ)
    (l : List EnumInstance)
    (h : SmartFlagEnum.TryFromValue d v = .ok (some l))
    (hne : d.instances.all (fun i => i.value != v) = true) :
    l.Pairwise (fun a b => b.value ≤ a.value) ∧
    SmartFlagEnum.TryFromValueToString d v =
      .ok (some (String.intercalate ", " (l.map EnumInstance.name))) := by
  have hfind := find?_value_eq_none d.instances v hne
  have hl : l = (greedyLoop (sortDescByValue d.instances) v).1 := by
    by_cases hv : v < 0
    · rw [tryFromValue_eq_neg d v hfind hv] at h
      cases h
    · by_cases hfit : fitsInDefinedFlags d v = true
      · rw [tryFromValue_eq_decomp d v hfind hv hfit] at h
        by_cases hz : (greedyLoop (sortDescByValue d.instances) v).2 = 0
        · rw [if_pos hz] at h
          cases h
          rfl
        · rw [if_neg hz] at h
          cases h
      · rw [tryFromValue_eq_nofit d v hfind hv (by simpa using hfit)] at h
        cases h
  constructor
  · rw [hl]
    exact (sortDescByValue_sorted d.instances).sublist
      (greedyLoop_fst_sublist (sortDescByValue d.instances) v)
  · unfold SmartFlagEnum.TryFromValueToString
    rw [h]

/-- Strict flag type A = 1, B = 2, C = 4, used in the C4 witness. -/
def dC4w : SmartFlagEnum.FlagDecl := ⟨[⟨"A", 1⟩, ⟨"B", 2⟩, ⟨"C", 4⟩], false, false⟩

/-- C4 witness: FromValue(3) decomposes to [B, A] (descending by value) and
renders as the string B comma space A. -/
theorem c4_witness :
    SmartFlagEnum.TryFromValue dC4w 3 = .ok (some [⟨"B", 2⟩, ⟨"A", 1⟩]) ∧
    List.Pairwise (fun a b : EnumInstance => b.value ≤ a.value)
      [⟨"B", 2⟩, ⟨"A", 1⟩] ∧
    SmartFlagEnum.TryFromValueToString dC4w 3 = .ok (some "B, A") := by
  have h : SmartFlagEnum.TryFromValue dC4w 3 = .ok (some [⟨"B", 2⟩, ⟨"A", 1⟩]) := rfl
  have h2 := c4_decomposition_descending dC4w 3 [⟨"B", 2⟩, ⟨"A", 1⟩] h (by decide)
  exact ⟨h, h2.1, h2.2⟩

/-- Flag type with a gap in its power-of-two values (A = 1, C = 4, nothing
at 2) and without the unsafe-values capability, used for C5. -/
def dC5cex : SmartFlagEnum.FlagDecl := ⟨[⟨"A", 1⟩, ⟨"C", 4⟩], false, false⟩

/-- C5 counterexample: the claim says the first flag query on {A=1, C=4}
without the unsafe capability fails with a MissingFlagError referencing 2.
The code declares no such error and performs no contiguity check at all:
the first flag query List() succeeds. -/
theorem c5_counterexample :
    dC5cex.allowUnsafeValues = false ∧
    SmartFlagEnum.ListFn dC5cex = .ok [⟨"A", 1⟩, ⟨"C", 4⟩] :=
  ⟨rfl, rfl⟩

/-- C5 (amended): gaps in the declared power-of-two values are always
tolerated: validation performs no contiguity check (and defines no
MissingFlag error), so the first flag query succeeds for every declaration,
capability or not. -/
theorem c5_gaps_always_tolerated (d : SmartFlagEnum.FlagDecl)
    (h : d.allowUnsafeValues = false) :
    SmartFlagEnum.ListFn d = .ok d.instances := by
  unfold SmartFlagEnum.ListFn
  rw [SmartFlagEnum.enforceFlagDefinitions_ok]

/-- C5 witness: the gapped declaration passes its first flag query. -/
theorem c5_witness : SmartFlagEnum.ListFn dC5cex = .ok dC5cex.instances :=
  c5_gaps_always_tolerated dC5cex rfl

/-- Flag type with the non-power-of-two values 3 and 5 (tolerated by the
validator), used to refute C6. -/
def dC6cex : SmartFlagEnum.FlagDecl := ⟨[⟨"A", 3⟩, ⟨"B", 5⟩], false, true⟩

/-- C6 counterexample: for the type {A=3, B=5} the value 6 passes the
coverage check (6 has no bit outside 3 OR 5 = 7), yet the greedy
decomposition takes nothing (neither 3 nor 5 is contained in 6) and leaves
remainder 6, so TryFromValue reaches the leftover-remainder failure branch
the claim calls unreachable and reports failure. -/
theorem c6_counterexample :
    SmartFlagEnum.fitsInDefinedFlags dC6cex 6 = true ∧
    SmartFlagEnum.TryFromValue dC6cex 6 = .ok none :=
  ⟨rfl, rfl⟩

open SmartFlagEnum in
/-- C6 (amended): when every declared instance value is a power of two, a
non-negative queried value passing the coverage check is always decomposed
successfully — the greedy loop drives the remainder to zero, so the
leftover-remainder failure branch is unreachable.  (With non-power-of-two
values, which the broken validator tolerates, the branch is reachable.) -/
theorem c6_coverage_implies_success (d : SmartFlagEnum.FlagDecl) (v : ℤ)
    (hv : 0 ≤ v)
    (hpow : ∀ i ∈ d.instances, ∃ k : ℕ, i.value = (2 : ℤ) ^ k)
    (hfit : SmartFlagEnum.fitsInDefinedFlags d v = true) :
    ∃ l, SmartFlagEnum.TryFromValue d v = .ok (some l) := by
  cases hfind : d.instances.find? (fun i => i.value == v) with
  | some x => exact ⟨[x], tryFromValue_eq_exact d v x hfind⟩
  | none =>
    have hvneg : ¬ v < 0 := not_lt.mpr hv
    rw [tryFromValue_eq_decomp d v hfind hvneg hfit]
    have hz : (greedyLoop (sortDescByValue d.instances) v).2 = 0 := by
      apply greedyLoop_remainder_zero _ v hv
      intro b hb
      rcases fitsInDefinedFlags_cov d v hfit hpow b hb with ⟨i, hi, hival⟩
      exact ⟨i, (mem_sortDescByValue d.instances i).mpr hi, hival⟩
    rw [if_pos hz]
    exact ⟨_, rfl⟩

/-- Strict flag type A = 1, B = 2, C = 4, used in the C6 witness. -/
def dC6w : SmartFlagEnum.FlagDecl := ⟨[⟨"A", 1⟩, ⟨"B", 2⟩, ⟨"C", 4⟩], false, false⟩

/-- C6 witness: 7 is covered by the strict flags and decomposes
successfully. -/
theorem c6_witness :
    (0 : ℤ) ≤ 7 ∧ SmartFlagEnum.fitsInDefinedFlags dC6w 7 = true ∧
    ∃ l, SmartFlagEnum.TryFromValue dC6w 7 = .ok (some l) :=
  ⟨by decide, rfl,
   c6_coverage_implies_success dC6w 7 (by decide)
     (by
       intro i hi
       simp only [dC6w, List.mem_cons, List.not_mem_nil, or_false] at hi
       rcases hi with h | h | h <;> subst h
       · exact ⟨0, rfl⟩
       · exact ⟨1, rfl⟩
       · exact ⟨2, rfl⟩)
     rfl⟩

/-- Flag type without AllowNegativeFlagEnumInput, used for C7. -/
def dC7cex : SmartFlagEnum.FlagDecl := ⟨[⟨"X", 1⟩, ⟨"Y", 2⟩], false, false⟩

/-- C7 counterexample: the claim says FromValue on a negative value with no
exact match fails with the negative-value-not-allowed error.  The throwing
form does fail, but with the generic InvalidFlagEnumValueParseException: the
only throw of NegativeFlagValueNotAllowedException sits behind the delete of
a null pointer, which never throws, so TryFromValue returns false and the
FromValue wrapper raises the parse error instead. -/
theorem c7_counterexample :
    SmartFlagEnum.FromValue dC7cex (-5) =
      .error (.invalidFlagEnumValueParse (-5)) ∧
    SmartFlagEnum.FlagError.invalidFlagEnumValueParse (-5) ≠
      SmartFlagEnum.FlagError.negativeFlagValueNotAllowed (-5) :=
  ⟨rfl, by decide⟩

open SmartFlagEnum in
/-- C7 (amended): for a flag type without AllowNegativeFlagEnumInput, a
negative queried value with no exact instance match makes TryFromValue
report failure, and FromValue fails — with the generic parse error, the
negative-value-specific exception being unreachable. -/
theorem c7_negative_input_fails (d : SmartFlagEnum.FlagDecl) (v : ℤ)
    (hneg : v < 0) (hcap : d.allowNegativeInput = false)
    (hnoexact : d.instances.all (fun i => i.value != v) = true) :
    SmartFlagEnum.TryFromValue d v = .ok none ∧
    SmartFlagEnum.FromValue d v = .error (.invalidFlagEnumValueParse v) := by
  have hfind := find?_value_eq_none d.instances v hnoexact
  have hTry := tryFromValue_eq_neg d v hfind hneg
  refine ⟨hTry, ?_⟩
  unfold SmartFlagEnum.FromValue
  rw [hTry]

/-- C7 witness: the no-capability type rejects -5 in both forms. -/
theorem c7_witness :
    SmartFlagEnum.TryFromValue dC7cex (-5) = .ok none ∧
    SmartFlagEnum.FromValue dC7cex (-5) =
      .error (.invalidFlagEnumValueParse (-5)) :=
  c7_negative_input_fails dC7cex (-5) (by decide) rfl (by decide)

/-- C8 counterexample: registering One, Two, Three in that order succeeds,
but List() does not return them in registration order — the SmartEnum List
sorts alphabetically by name on first call, yielding One, Three, Two. -/
theorem c8_counterexample :
    registerAll [("One", 1), ("Two", 2), ("Three", 3)] =
      .ok [⟨"One", 1⟩, ⟨"Two", 2⟩, ⟨"Three", 3⟩] ∧
    SmartEnum.ListFn [⟨"One", 1⟩, ⟨"Two", 2⟩, ⟨"Three", 3⟩] ≠
      [⟨"One", 1⟩, ⟨"Two", 2⟩, ⟨"Three", 3⟩] ∧
    SmartEnum.ListFn [⟨"One", 1⟩, ⟨"Two", 2⟩, ⟨"Three", 3⟩] =
      [⟨"One", 1⟩, ⟨"Three", 3⟩, ⟨"Two", 2⟩] :=
  ⟨rfl, by decide, by decide⟩

/-- C8 (amended): List() returns all registered instances of the type, but
sorted alphabetically by name (lexicographically by character), not in
registration order: the result is a permutation of the registry in
non-descending name order.  (The variant SmartEnum header that returns the
registration order unsorted is not the one the build uses.) -/
theorem c8_list_is_name_sorted_permutation (insts : List EnumInstance) :
    (SmartEnum.ListFn insts).Perm insts ∧
    (SmartEnum.ListFn insts).Pairwise
      (fun a b => charListLt b.name.data a.name.data = false) := by
  constructor
  · exact sortLe_perm _ insts
  · have h := sortLe_pairwise
      (fun a b : EnumInstance => !(charListLt b.name.data a.name.data))
      (fun a b c hab hbc => by
        rw [Bool.not_eq_true'] at hab hbc ⊢
        cases hca : charListLt c.name.data a.name.data
        · rfl
        · exfalso
          cases hbc2 : charListLt b.name.data c.name.data
          · have heq := charListLt_connex _ _ hbc2 hbc
            rw [← heq] at hca
            rw [hca] at hab
            cases hab
          · have := charListLt_trans _ _ _ hbc2 hca
            rw [this] at hab
            cases hab)
      (fun a b => by
        cases hba : charListLt b.name.data a.name.data
        · simp [hba]
        · have hab := charListLt_asymm _ _ hba
          simp [hab])
      insts
    exact h.imp (fun hx => by
      rw [Bool.not_eq_true'] at hx
      exact hx)

/-- C9 counterexample: two instances P and Q registered with the same value
1.  Registration succeeds (only exact-name collisions fail), Q is a
registered instance, but FromValue(Q.Value()) returns the first registrant
P, not Q — the round-trip through the value index fails for Q. -/
theorem c9_counterexample :
    registerAll [("P", 1), ("Q", 1)] = .ok [⟨"P", 1⟩, ⟨"Q", 1⟩] ∧
    (⟨"Q", 1⟩ : EnumInstance) ∈ [(⟨"P", 1⟩ : EnumInstance), ⟨"Q", 1⟩] ∧
    SmartEnum.TryFromValueInternal [⟨"P", 1⟩, ⟨"Q", 1⟩] 1 = some ⟨"P", 1⟩ ∧
    some (⟨"P", 1⟩ : EnumInstance) ≠ some ⟨"Q", 1⟩ :=
  ⟨rfl, by decide, rfl, by decide⟩

/-- C9 (amended): for every successfully registered registry and every
registered instance x, FromName(x.Name()) returns x (exact names are
unique); FromValue(x.Value()) returns x provided x is the first registrant
of its value — the value index keeps the first registrant on collisions, so
the value round-trip holds in general only under that proviso. -/
theorem c9_roundtrip_first_registrant (pairs : List (String × ℤ))
    (insts : List EnumInstance) (hreg : registerAll pairs = .ok insts)
    (x : EnumInstance) (hx : x ∈ insts) :
    SmartEnum.TryFromNameInternal insts x.name false = some x ∧
    (∀ k : ℕ, insts[k]? = some x →
      (insts.take k).all (fun y => y.value != x.value) = true →
      SmartEnum.TryFromValueInternal insts x.value = some x) := by
  have hgood := registerAll_goodNames pairs insts hreg
  constructor
  · unfold SmartEnum.TryFromNameInternal
    have hne : x.name.isEmpty = false := hgood.1 x hx
    rw [if_neg (by simp [hne]), if_neg (by simp)]
    exact find?_name_eq_of_goodNames insts hgood.2 x hx
  · intro k hk hfirst
    apply find?_eq_of_take _ insts k x hk (by simp)
    intro y hy
    have hyv := List.all_eq_true.mp hfirst y hy
    simpa using hyv

/-- C9 witness: in the colliding registry P = 1, Q = 1, the name round-trip
holds even for the later same-value registrant Q, while the value round-trip
holds for the first registrant P. -/
theorem c9_witness :
    SmartEnum.TryFromNameInternal [⟨"P", 1⟩, ⟨"Q", 1⟩] "Q" false =
      some ⟨"Q", 1⟩ ∧
    SmartEnum.TryFromValueInternal [⟨"P", 1⟩, ⟨"Q", 1⟩] 1 =
      some ⟨"P", 1⟩ :=
  ⟨(c9_roundtrip_first_registrant [("P", 1), ("Q", 1)] _ rfl
      ⟨"Q", 1⟩ (by decide)).1,
   (c9_roundtrip_first_registrant [("P", 1), ("Q", 1)] _ rfl
      ⟨"P", 1⟩ (by decide)).2 0 rfl (by decide)⟩

open SmartFlagEnum in
/-- C10: for a flag type with no zero-valued instance, TryFromValue(0)
succeeds with the empty instance list (the coverage check passes trivially,
the greedy loop breaks immediately with remainder 0), and consequently
TryFromValueToString(0) succeeds with the empty string; no not-found failure
is reported.  Validation always passes, so no validity hypothesis is
needed. -/
theorem c10_zero_yields_empty (d : SmartFlagEnum.FlagDecl)
    (h0 : d.instances.all (fun i => i.value != 0) = true) :
    SmartFlagEnum.TryFromValue d 0 = .ok (some []) ∧
    SmartFlagEnum.TryFromValueToString d 0 = .ok (some "") := by
  have hfind := find?_value_eq_none d.instances 0 h0
  have hvneg : ¬ (0 : ℤ) < 0 := by decide
  have hfit : fitsInDefinedFlags d 0 = true := by
    show decide (intAnd 0 (intNot (d.instances.foldl (fun a i => intOr a i.value) 0)) = 0) = true
    rw [intAnd_zero_left]
    simp
  have hTry := tryFromValue_eq_decomp d 0 hfind hvneg hfit
  have hg : greedyLoop (sortDescByValue d.instances) 0 = ([], 0) := by
    apply greedyLoop_at_zero
    intro f hf
    have hfm := (mem_sortDescByValue d.instances f).mp hf
    have hfv := List.all_eq_true.mp h0 f hfm
    simpa using hfv
  rw [hg] at hTry
  rw [if_pos rfl] at hTry
  refine ⟨hTry, ?_⟩
  unfold SmartFlagEnum.TryFromValueToString
  rw [hTry]
  rfl

/-- Flag type with no zero instance, used in the C10 witness. -/
def dC10w : SmartFlagEnum.FlagDecl := ⟨[⟨"A", 1⟩, ⟨"B", 2⟩], false, false⟩

/-- C10 witness: querying 0 on {A=1, B=2} yields the empty list and the
empty string. -/
theorem c10_witness :
    SmartFlagEnum.TryFromValue dC10w 0 = .ok (some []) ∧
    SmartFlagEnum.TryFromValueToString dC10w 0 = .ok (some "") :=
  c10_zero_yields_empty dC10w (by decide)

end SmartEnumCpp
